import Mathlib

/-!
# Verification of the recipe-lang tokenizer

A shallow embedding of `src/parser.rs` (a nom-based tokenizer for a small
recipe markup dialect), together with theorems settling the claims about
its parsing and rendering behaviour.

The embedding models nom's `IResult` with a three-way result: success,
recoverable error (nom's `Err::Error`, which alternatives backtrack over)
and committed failure (nom's `Err::Failure`, produced by `cut`, which
aborts the whole parse).  Input is a `List Char`; every combinator is a
plain function so that all parses evaluate inside the kernel.
-/

namespace Recipe

/-- Result of running a parser, mirroring nom's `IResult`:
`ok remaining value`, a recoverable `err remaining label`
(nom `Err::Error`), or a committed `fail remaining label`
(nom `Err::Failure`, produced by `cut`). -/
inductive NRes (α : Type) where
  | ok : List Char → α → NRes α
  | err : List Char → String → NRes α
  | fail : List Char → String → NRes α
deriving DecidableEq, Repr

/-- A parser consumes a character list and produces an `NRes`. -/
def Parser (α : Type) : Type := List Char → NRes α

/-- nom's `map`: apply `f` to the parsed value. -/
def pmap {α β : Type} (p : Parser α) (f : α → β) : Parser β := fun i =>
  match p i with
  | .ok r v => .ok r (f v)
  | .err r s => .err r s
  | .fail r s => .fail r s

/-- nom's `tag`: match a literal character sequence. -/
def ptag (pat : List Char) : Parser (List Char) := fun i =>
  if pat.isPrefixOf i then .ok (i.drop pat.length) pat else .err i "tag"

/-- nom's `char`: match one exact character. -/
def pchar (c : Char) : Parser Char := fun i =>
  match i with
  | [] => .err [] "char"
  | x :: rest => if x == c then .ok rest x else .err (x :: rest) "char"

/-- nom's `take_while1`: longest (possibly empty is an error) prefix
satisfying `p`. -/
def take_while1 (p : Char → Bool) : Parser (List Char) := fun i =>
  match i.takeWhile p with
  | [] => .err i "take_while1"
  | c :: cs => .ok (i.dropWhile p) (c :: cs)

/-- nom's `take_till1`: longest non-empty prefix of characters NOT
satisfying `p`. -/
def take_till1 (p : Char → Bool) : Parser (List Char) :=
  take_while1 (fun c => !(p c))

/-- nom's `take_while` (zero or more), used for `space0`/`multispace0`. -/
def take_while0 (p : Char → Bool) : Parser (List Char) := fun i =>
  .ok (i.dropWhile p) (i.takeWhile p)

/-- Index of the first occurrence of (non-empty) `pat` as a contiguous
sublist, if any. -/
def findSub (pat : List Char) : List Char → Option Nat
  | [] => none
  | c :: rest =>
    if pat.isPrefixOf (c :: rest) then some 0
    else (findSub pat rest).map (fun n => n + 1)

/-- nom's `take_until`: consume up to (excluding) the first occurrence of
`pat`; recoverable error when `pat` does not occur. -/
def take_until (pat : List Char) : Parser (List Char) := fun i =>
  match findSub pat i with
  | some n => .ok (i.drop n) (i.take n)
  | none => .err i "take_until"

/-- nom's `cut`: turn a recoverable error into a committed failure. -/
def cut {α : Type} (p : Parser α) : Parser α := fun i =>
  match p i with
  | .ok r v => .ok r v
  | .err r _ => .fail r "cut"
  | .fail r s => .fail r s

/-- nom's `context`: label errors of the wrapped parser with a
diagnostic string. -/
def context {α : Type} (label : String) (p : Parser α) : Parser α := fun i =>
  match p i with
  | .ok r v => .ok r v
  | .err r _ => .err r label
  | .fail r _ => .fail r label

/-- nom's `preceded`: run both, keep the second value. -/
def preceded {α β : Type} (p : Parser α) (q : Parser β) : Parser β := fun i =>
  match p i with
  | .ok r _ => q r
  | .err r s => .err r s
  | .fail r s => .fail r s

/-- nom's `terminated`: run both, keep the first value. -/
def terminated {α β : Type} (p : Parser α) (q : Parser β) : Parser α := fun i =>
  match p i with
  | .ok r v =>
    match q r with
    | .ok r2 _ => .ok r2 v
    | .err r2 s => .err r2 s
    | .fail r2 s => .fail r2 s
  | .err r s => .err r s
  | .fail r s => .fail r s

/-- nom's `pair`: run both, keep both values. -/
def ppair {α β : Type} (p : Parser α) (q : Parser β) : Parser (α × β) := fun i =>
  match p i with
  | .ok r v =>
    match q r with
    | .ok r2 w => .ok r2 (v, w)
    | .err r2 s => .err r2 s
    | .fail r2 s => .fail r2 s
  | .err r s => .err r s
  | .fail r s => .fail r s

/-- nom's `delimited(a, b, c)`: `a`, then `b`, then `c`, keeping `b`. -/
def delimited {α β γ : Type} (a : Parser α) (b : Parser β) (c : Parser γ) :
    Parser β :=
  preceded a (terminated b c)

/-- nom's `opt`: recoverable errors become `none`; committed failures
still propagate (this is what makes an unterminated ingredient amount
abort the whole parse). -/
def popt {α : Type} (p : Parser α) : Parser (Option α) := fun i =>
  match p i with
  | .ok r v => .ok r (some v)
  | .err _ _ => .ok i none
  | .fail r s => .fail r s

/-- nom's `alt` on two parsers: try `p`; on a recoverable error try `q`;
a committed failure aborts. -/
def palt {α : Type} (p q : Parser α) : Parser α := fun i =>
  match p i with
  | .ok r v => .ok r v
  | .err _ _ => q i
  | .fail r s => .fail r s

/-- Loop of nom's `many1` after the first success.  Structured with fuel
so that it evaluates in the kernel; nom stops the loop on a recoverable
error, aborts on a failure, and errors when an iteration consumes no
input (our parsers always consume, so with fuel above the input length
the fuel branch is unreachable). -/
def many1Go {α : Type} (p : Parser α) : Nat → List Char → List α → NRes (List α)
  | 0, i, _ => .err i "many1 fuel"
  | fuel + 1, i, acc =>
    match p i with
    | .err _ _ => .ok i acc.reverse
    | .fail r s => .fail r s
    | .ok i1 o =>
      if i1.length < i.length then many1Go p fuel i1 (o :: acc)
      else .err i "many1"

/-- nom's `many1`: at least one application of `p`, then loop. -/
def many1 {α : Type} (p : Parser α) : Parser (List α) := fun i =>
  match p i with
  | .err r s => .err r s
  | .fail r s => .fail r s
  | .ok i1 o => many1Go p (i1.length + 1) i1 [o]

/-- nom's `line_ending`: `"\n"` or `"\r\n"`. -/
def line_ending : Parser (List Char) := fun i =>
  match i with
  | [] => .err [] "line_ending"
  | c :: rest =>
    if c == '\n' then .ok rest ['\n']
    else if c == '\r' then
      match rest with
      | '\n' :: rest2 => .ok rest2 ['\r', '\n']
      | _ => .err (c :: rest) "line_ending"
    else .err (c :: rest) "line_ending"

/-- Whitespace set of nom's `multispace0` and of the source's `multispace`
string `" \t\r\n"`. -/
def isMultispace (c : Char) : Bool :=
  c == ' ' || c == '\t' || c == '\r' || c == '\n'

/-- Whitespace set of nom's `space0`: space and tab only. -/
def isSpaceTab (c : Char) : Bool := c == ' ' || c == '\t'

/-- nom's `space0`. -/
def space0 : Parser (List Char) := take_while0 isSpaceTab

/-- nom's `multispace0`. -/
def multispace0 : Parser (List Char) := take_while0 isMultispace

/-- Rust `char::is_whitespace` (the set `str::trim` strips), modelled on
its ASCII part (tab, LF, VT, FF, CR, space); the claims' inputs contain
no non-ASCII whitespace. -/
def isRustWhitespace (c : Char) : Bool :=
  c == ' ' || c == '\t' || c == '\n' || c == '\r'
    || c == Char.ofNat 11 || c == Char.ofNat 12

/-- Rust `str::trim`: strip whitespace from both ends. -/
def trimList (l : List Char) : List Char :=
  ((l.dropWhile isRustWhitespace).reverse.dropWhile isRustWhitespace).reverse

/-- The symbol set allowed inside payloads, the source's
`spaces_and_symbols` string: tab, space, slash, hyphen, underscore,
at-sign, dot, comma, percent, hash, apostrophe. -/
def spaces_and_symbols : List Char :=
  ['\t', ' ', '/', '-', '_', '@', '.', ',', '%', '#', Char.ofNat 39]

/-- Rust `char::is_alphanumeric`, modelled on its ASCII part (the claims'
inputs are ASCII). -/
def is_alphanumeric (c : Char) : Bool := c.isAlpha || c.isDigit

/-- Character predicate of `parse_valid_string`. -/
def validChar (c : Char) : Bool :=
  is_alphanumeric c || spaces_and_symbols.contains c

/-- `parse_valid_string` from the source: a non-empty run of alphanumeric
characters and allowed symbols. -/
def parse_valid_string : Parser (List Char) :=
  take_while1 validChar

/-- `parse_comment` from the source:
`delimited(tag("/*"), map(take_until("*/"), trim), preceded(tag("*/"), space0))`. -/
def parse_comment : Parser (List Char) :=
  delimited (ptag ['/', '*'])
    (pmap (take_until ['*', '/']) trimList)
    (preceded (ptag ['*', '/']) space0)

/-- `parse_curly` from the source:
`delimited(char('{'), map(parse_valid_string, trim), context("missing closing }", cut(char('}'))))`. -/
def parse_curly : Parser (List Char) :=
  delimited (pchar '\x7b')
    (pmap parse_valid_string trimList)
    (context "missing closing \x7d" (cut (pchar '\x7d')))

/-- `parse_ingredient_amount` from the source:
`delimited(tag("("), parse_valid_string, context("missing closing )", cut(tag(")"))))`. -/
def parse_ingredient_amount : Parser (List Char) :=
  delimited (ptag ['('])
    parse_valid_string
    (context "missing closing )" (cut (ptag [')'])))

/-- `parse_ingredient` from the source:
`pair(parse_curly, opt(parse_ingredient_amount))`. -/
def parse_ingredient : Parser (List Char × Option (List Char)) :=
  ppair parse_curly (popt parse_ingredient_amount)

/-- `parse_material` from the source: `preceded(tag("m"), parse_curly)`. -/
def parse_material : Parser (List Char) :=
  preceded (ptag ['m']) parse_curly

/-- `parse_timer` from the source: `preceded(tag("t"), parse_curly)`. -/
def parse_timer : Parser (List Char) :=
  preceded (ptag ['t']) parse_curly

/-- `parse_word` from the source: `take_till1(|c| multispace.contains(c))`. -/
def parse_word : Parser (List Char) :=
  take_till1 isMultispace

/-- `parse_space` from the source: `take_while1(|c| multispace.contains(c))`. -/
def parse_space : Parser (List Char) :=
  take_while1 isMultispace

/-- `parse_metadata` from the source:
`preceded(terminated(tag(">>"), space0), pair(take_while1(|c| c != ':'), preceded(terminated(tag(":"), space0), take_until("\n"))))`. -/
def parse_metadata : Parser (List Char × List Char) :=
  preceded (terminated (ptag ['>', '>']) space0)
    (ppair (take_while1 (fun c => !(c == ':')))
      (preceded (terminated (ptag [':']) space0) (take_until ['\n'])))

/-- `parse_backstory` from the source: match
`delimited(preceded(line_ending, multispace0), tag("---"), preceded(line_ending, multispace0))`
and, on success, return the whole tail as the payload with nothing left. -/
def parse_backstory : Parser (List Char) := fun i =>
  match delimited (preceded line_ending multispace0)
      (ptag ['-', '-', '-'])
      (preceded line_ending multispace0) i with
  | .ok tail _ => .ok [] tail
  | .err r s => .err r s
  | .fail r s => .fail r s

/-- The `Token` enum from the source. -/
inductive Token where
  | Metadata : List Char → List Char → Token
  | Ingredient : List Char → Option (List Char) → Token
  | Timer : List Char → Token
  | Material : List Char → Token
  | Word : List Char → Token
  | Space : List Char → Token
  | Comment : List Char → Token
  | Backstory : List Char → Token
deriving DecidableEq, Repr

/-- `impl Display for Token` from the source: an ingredient renders as
its name, timers/materials/words/spaces/backstories render verbatim,
metadata and comments render as nothing. -/
def Token.render : Token → List Char
  | .Ingredient name _ => name
  | .Backstory v => v
  | .Timer v => v
  | .Material v => v
  | .Word v => v
  | .Space v => v
  | .Metadata _ _ => []
  | .Comment _ => []

/-- Recognizer for the `Backstory` variant. -/
def Token.isBackstory : Token → Bool
  | .Backstory _ => true
  | _ => false

/-- The prioritized alternative applied at each scan position: the body
of the `alt(( ... ))` inside `parse`, in the source's order. -/
def singleToken : Parser Token :=
  palt (pmap parse_metadata (fun kv => Token.Metadata kv.1 kv.2))
  (palt (pmap parse_material Token.Material)
  (palt (pmap parse_timer Token.Timer)
  (palt (pmap parse_ingredient (fun na => Token.Ingredient na.1 na.2))
  (palt (pmap parse_backstory Token.Backstory)
  (palt (pmap parse_comment Token.Comment)
  (palt (pmap parse_word Token.Word)
        (pmap parse_space Token.Space)))))))

/-- `parse` from the source: `many1(alt((...)))`. -/
def parse : Parser (List Token) := many1 singleToken

/-- Concatenation of the rendered (Display) form of every token, in
order — the `fold` used by the source's tests. -/
def renderAll (toks : List Token) : List Char :=
  (toks.map Token.render).flatten

/-- Run `parse` and render the resulting tokens; `none` when parsing
fails. -/
def renderParse (i : List Char) : Option (List Char) :=
  match parse i with
  | .ok _ toks => some (renderAll toks)
  | _ => none

theorem takeWhile_stop {p : Char → Bool} {c : Char} (hc : p c = false)
    (xs zs : List Char) : (xs ++ c :: zs).takeWhile p = xs.takeWhile p := by
  induction xs with
  | nil => simp [List.takeWhile_cons, hc]
  | cons a as ih => by_cases h : p a <;> simp [List.takeWhile_cons, h, ih]

theorem dropWhile_stop {p : Char → Bool} {c : Char} (hc : p c = false)
    (xs zs : List Char) :
    (xs ++ c :: zs).dropWhile p = xs.dropWhile p ++ c :: zs := by
  induction xs with
  | nil => simp [List.dropWhile_cons, hc]
  | cons a as ih => by_cases h : p a <;> simp [List.dropWhile_cons, h, ih]

theorem takeWhile_of_all {p : Char → Bool} {xs : List Char}
    (h : xs.all p = true) : xs.takeWhile p = xs :=
  List.takeWhile_eq_self_iff.mpr (by simpa [List.all_eq_true] using h)

theorem dropWhile_of_all {p : Char → Bool} {xs : List Char}
    (h : xs.all p = true) : xs.dropWhile p = [] :=
  List.dropWhile_eq_nil_iff.mpr (by simpa [List.all_eq_true] using h)

theorem findSub_single {c : Char} :
    ∀ (xs ys : List Char), c ∉ xs →
    findSub [c] (xs ++ c :: ys) = some xs.length := by
  intro xs ys
  induction xs with
  | nil => intro _; simp [findSub, List.isPrefixOf]
  | cons a as ih =>
    intro h
    have ha : (c == a) = false := beq_eq_false_iff_ne.mpr (by simp at h; exact h.1)
    have has : c ∉ as := by simp at h; exact h.2
    simp [findSub, List.isPrefixOf, ha, ih has]

theorem mem_of_mem_dropWhile {p : Char → Bool} {c : Char} {l : List Char}
    (h : c ∈ l.dropWhile p) : c ∈ l :=
  (List.dropWhile_sublist p).mem h

theorem ptag_append_ok (pat rest : List Char) :
    ptag pat (pat ++ rest) = NRes.ok rest pat := by
  simp [ptag, List.isPrefixOf_iff_prefix, List.prefix_append, List.drop_left]

theorem ptag_cons_err {p c : Char} (ps t : List Char) (h : (p == c) = false) :
    ptag (p :: ps) (c :: t) = NRes.err (c :: t) "tag" := by
  simp [ptag, List.isPrefixOf, h]

theorem ptag_nil_err (p : Char) (ps : List Char) :
    ptag (p :: ps) [] = NRes.err [] "tag" := by
  simp [ptag, List.isPrefixOf]

theorem pmap_ok_of {α β : Type} {p : Parser α} {f : α → β} {i r : List Char}
    {v : α} (h : p i = NRes.ok r v) : pmap p f i = NRes.ok r (f v) := by
  simp [pmap, h]

theorem pmap_err_of {α β : Type} {p : Parser α} {f : α → β} {i r : List Char}
    {s : String} (h : p i = NRes.err r s) : pmap p f i = NRes.err r s := by
  simp [pmap, h]

theorem pmap_fail_of {α β : Type} {p : Parser α} {f : α → β} {i r : List Char}
    {s : String} (h : p i = NRes.fail r s) : pmap p f i = NRes.fail r s := by
  simp [pmap, h]

theorem pmap_err_elim {α β : Type} {p : Parser α} {f : α → β} {i r : List Char}
    {s : String} (h : pmap p f i = NRes.err r s) : p i = NRes.err r s := by
  unfold pmap at h
  cases hp : p i with
  | ok r2 v => rw [hp] at h; cases h
  | err r2 s2 => rw [hp] at h; cases h; rfl
  | fail r2 s2 => rw [hp] at h; cases h

theorem pmap_ok_elim {α β : Type} {p : Parser α} {f : α → β} {i r : List Char}
    {w : β} (h : pmap p f i = NRes.ok r w) :
    ∃ v, p i = NRes.ok r v ∧ w = f v := by
  unfold pmap at h
  cases hp : p i with
  | ok r2 v => rw [hp] at h; cases h; exact ⟨v, rfl, rfl⟩
  | err r2 s2 => rw [hp] at h; cases h
  | fail r2 s2 => rw [hp] at h; cases h

theorem palt_ok {α : Type} {p q : Parser α} {i r : List Char} {v : α}
    (h : p i = NRes.ok r v) : palt p q i = NRes.ok r v := by
  simp [palt, h]

theorem palt_err {α : Type} {p q : Parser α} {i r : List Char} {s : String}
    (h : p i = NRes.err r s) : palt p q i = q i := by
  simp [palt, h]

theorem palt_fail {α : Type} {p q : Parser α} {i r : List Char} {s : String}
    (h : p i = NRes.fail r s) : palt p q i = NRes.fail r s := by
  simp [palt, h]

theorem palt_err_elim {α : Type} {p q : Parser α} {i r : List Char} {s : String}
    (h : palt p q i = NRes.err r s) :
    (∃ r2 s2, p i = NRes.err r2 s2) ∧ q i = NRes.err r s := by
  unfold palt at h
  cases hp : p i with
  | ok r2 v => rw [hp] at h; cases h
  | err r2 s2 => rw [hp] at h; exact ⟨⟨r2, s2, rfl⟩, h⟩
  | fail r2 s2 => rw [hp] at h; cases h

theorem palt_ok_elim {α : Type} {p q : Parser α} {i r : List Char} {v : α}
    (h : palt p q i = NRes.ok r v) :
    p i = NRes.ok r v ∨ q i = NRes.ok r v := by
  unfold palt at h
  cases hp : p i with
  | ok r2 v2 => rw [hp] at h; cases h; exact Or.inl rfl
  | err r2 s2 => rw [hp] at h; exact Or.inr h
  | fail r2 s2 => rw [hp] at h; cases h

theorem take_while1_err_elim {p : Char → Bool} {i r : List Char} {s : String}
    (h : take_while1 p i = NRes.err r s) : i.takeWhile p = [] := by
  unfold take_while1 at h
  cases ht : i.takeWhile p with
  | nil => rfl
  | cons c cs => rw [ht] at h; cases h

theorem parse_metadata_err_head {c : Char} (t : List Char)
    (h : ('>' == c) = false) :
    parse_metadata (c :: t) = NRes.err (c :: t) "tag" := by
  simp [parse_metadata, preceded, terminated, ptag_cons_err ['>'] t h]

theorem parse_material_err_head {c : Char} (t : List Char)
    (h : ('m' == c) = false) :
    parse_material (c :: t) = NRes.err (c :: t) "tag" := by
  simp [parse_material, preceded, ptag_cons_err [] t h]

theorem parse_timer_err_head {c : Char} (t : List Char)
    (h : ('t' == c) = false) :
    parse_timer (c :: t) = NRes.err (c :: t) "tag" := by
  simp [parse_timer, preceded, ptag_cons_err [] t h]

theorem parse_curly_err_head {c : Char} (t : List Char)
    (h : (c == '\x7b') = false) :
    parse_curly (c :: t) = NRes.err (c :: t) "char" := by
  simp [parse_curly, delimited, preceded, terminated, pchar, h]

theorem parse_ingredient_err_head {c : Char} (t : List Char)
    (h : (c == '\x7b') = false) :
    parse_ingredient (c :: t) = NRes.err (c :: t) "char" := by
  simp [parse_ingredient, ppair, parse_curly_err_head t h]

theorem parse_backstory_err_head {c : Char} (t : List Char)
    (h1 : (c == '\n') = false) (h2 : (c == '\r') = false) :
    parse_backstory (c :: t) = NRes.err (c :: t) "line_ending" := by
  simp [parse_backstory, delimited, preceded, terminated, line_ending, h1, h2]

theorem parse_comment_err_head {c : Char} (t : List Char)
    (h : ('/' == c) = false) :
    parse_comment (c :: t) = NRes.err (c :: t) "tag" := by
  simp [parse_comment, delimited, preceded, terminated, ptag_cons_err ['*'] t h]

theorem parse_word_ok_head {c : Char} (t : List Char)
    (h : isMultispace c = false) :
    parse_word (c :: t)
      = NRes.ok (t.dropWhile (fun x => !(isMultispace x)))
          (c :: t.takeWhile (fun x => !(isMultispace x))) := by
  simp [parse_word, take_till1, take_while1, List.takeWhile_cons,
    List.dropWhile_cons, h]

theorem parse_space_ok_head {c : Char} (t : List Char)
    (h : isMultispace c = true) :
    parse_space (c :: t)
      = NRes.ok (t.dropWhile isMultispace) (c :: t.takeWhile isMultispace) := by
  simp [parse_space, take_while1, List.takeWhile_cons, List.dropWhile_cons, h]

theorem parse_curly_ok_shape {payload : List Char} (rest : List Char)
    (hne : payload ≠ []) (hval : payload.all validChar = true) :
    parse_curly ('\x7b' :: (payload ++ '\x7d' :: rest))
      = NRes.ok rest (trimList payload) := by
  obtain ⟨c, cs, rfl⟩ := List.exists_cons_of_ne_nil hne
  have h1 : (c :: (cs ++ '\x7d' :: rest)).takeWhile validChar = c :: cs := by
    simpa using (takeWhile_stop (by decide : validChar '\x7d' = false)
      (c :: cs) rest).trans (takeWhile_of_all hval)
  have h2 : (c :: (cs ++ '\x7d' :: rest)).dropWhile validChar
      = '\x7d' :: rest := by
    have h := dropWhile_stop (by decide : validChar '\x7d' = false)
      (c :: cs) rest
    rw [dropWhile_of_all hval] at h
    simpa using h
  simp [parse_curly, delimited, preceded, terminated, pchar, pmap,
    parse_valid_string, take_while1, context, cut, h1, h2]

theorem parse_curly_fail_shape {s : List Char}
    (h1 : s.takeWhile validChar ≠ [])
    (h2 : (s.dropWhile validChar).head? ≠ some '\x7d') :
    parse_curly ('\x7b' :: s)
      = NRes.fail (s.dropWhile validChar) "missing closing \x7d" := by
  obtain ⟨c, cs, hcs⟩ := List.exists_cons_of_ne_nil h1
  cases hd : s.dropWhile validChar with
  | nil =>
    simp [parse_curly, delimited, preceded, terminated, pchar, pmap,
      parse_valid_string, take_while1, context, cut, hcs, hd]
  | cons d ds =>
    have hdne : (d == '\x7d') = false := by
      rw [hd] at h2
      simp at h2
      exact beq_eq_false_iff_ne.mpr h2
    simp [parse_curly, delimited, preceded, terminated, pchar, pmap,
      parse_valid_string, take_while1, context, cut, hcs, hd, hdne]

theorem parse_amount_fail_shape {s : List Char}
    (h1 : s.takeWhile validChar ≠ [])
    (h2 : (s.dropWhile validChar).head? ≠ some ')') :
    parse_ingredient_amount ('(' :: s)
      = NRes.fail (s.dropWhile validChar) "missing closing )" := by
  obtain ⟨c, cs, hcs⟩ := List.exists_cons_of_ne_nil h1
  have hopen : ptag ['('] ('(' :: s) = NRes.ok s ['('] := by
    simpa using ptag_append_ok ['('] s
  cases hd : s.dropWhile validChar with
  | nil =>
    simp [parse_ingredient_amount, delimited, preceded, terminated, hopen,
      parse_valid_string, take_while1, context, cut, hcs, hd, ptag_nil_err]
  | cons d ds =>
    have hdne : (')' == d) = false := by
      rw [hd] at h2
      simp at h2
      exact beq_eq_false_iff_ne.mpr (Ne.symm h2)
    simp [parse_ingredient_amount, delimited, preceded, terminated, hopen,
      parse_valid_string, take_while1, context, cut, hcs, hd,
      ptag_cons_err [] ds hdne]

theorem parse_material_ok_shape {payload : List Char} (rest : List Char)
    (hne : payload ≠ []) (hval : payload.all validChar = true) :
    parse_material ('m' :: '\x7b' :: (payload ++ '\x7d' :: rest))
      = NRes.ok rest (trimList payload) := by
  have hopen : ptag ['m'] ('m' :: '\x7b' :: (payload ++ '\x7d' :: rest))
      = NRes.ok ('\x7b' :: (payload ++ '\x7d' :: rest)) ['m'] := by
    simpa using ptag_append_ok ['m'] ('\x7b' :: (payload ++ '\x7d' :: rest))
  simp [parse_material, preceded, hopen, parse_curly_ok_shape rest hne hval]

theorem parse_timer_ok_shape {payload : List Char} (rest : List Char)
    (hne : payload ≠ []) (hval : payload.all validChar = true) :
    parse_timer ('t' :: '\x7b' :: (payload ++ '\x7d' :: rest))
      = NRes.ok rest (trimList payload) := by
  have hopen : ptag ['t'] ('t' :: '\x7b' :: (payload ++ '\x7d' :: rest))
      = NRes.ok ('\x7b' :: (payload ++ '\x7d' :: rest)) ['t'] := by
    simpa using ptag_append_ok ['t'] ('\x7b' :: (payload ++ '\x7d' :: rest))
  simp [parse_timer, preceded, hopen, parse_curly_ok_shape rest hne hval]

theorem parse_comment_err_no_close {t : List Char}
    (h : findSub ['*', '/'] t = none) :
    parse_comment ('/' :: '*' :: t) = NRes.err t "take_until" := by
  have hopen : ptag ['/', '*'] ('/' :: '*' :: t) = NRes.ok t ['/', '*'] := by
    simpa using ptag_append_ok ['/', '*'] t
  simp [parse_comment, delimited, preceded, terminated, hopen, pmap,
    take_until, h]

theorem singleToken_material {payload : List Char} (rest : List Char)
    (hne : payload ≠ []) (hval : payload.all validChar = true) :
    singleToken ('m' :: '\x7b' :: (payload ++ '\x7d' :: rest))
      = NRes.ok rest (Token.Material (trimList payload)) := by
  unfold singleToken
  rw [palt_err (pmap_err_of (parse_metadata_err_head _ (by decide)))]
  exact palt_ok (pmap_ok_of (parse_material_ok_shape rest hne hval))

theorem singleToken_timer {payload : List Char} (rest : List Char)
    (hne : payload ≠ []) (hval : payload.all validChar = true) :
    singleToken ('t' :: '\x7b' :: (payload ++ '\x7d' :: rest))
      = NRes.ok rest (Token.Timer (trimList payload)) := by
  unfold singleToken
  rw [palt_err (pmap_err_of (parse_metadata_err_head _ (by decide)))]
  rw [palt_err (pmap_err_of (parse_material_err_head _ (by decide)))]
  exact palt_ok (pmap_ok_of (parse_timer_ok_shape rest hne hval))

theorem singleToken_curly_fail {s : List Char}
    (h1 : s.takeWhile validChar ≠ [])
    (h2 : (s.dropWhile validChar).head? ≠ some '\x7d') :
    singleToken ('\x7b' :: s)
      = NRes.fail (s.dropWhile validChar) "missing closing \x7d" := by
  unfold singleToken
  rw [palt_err (pmap_err_of (parse_metadata_err_head _ (by decide)))]
  rw [palt_err (pmap_err_of (parse_material_err_head _ (by decide)))]
  rw [palt_err (pmap_err_of (parse_timer_err_head _ (by decide)))]
  refine palt_fail (pmap_fail_of ?_)
  simp [parse_ingredient, ppair, parse_curly_fail_shape h1 h2]

theorem singleToken_amount_fail {name s : List Char} (hnn : name ≠ [])
    (hnv : name.all validChar = true)
    (h1 : s.takeWhile validChar ≠ [])
    (h2 : (s.dropWhile validChar).head? ≠ some ')') :
    singleToken ('\x7b' :: (name ++ '\x7d' :: '(' :: s))
      = NRes.fail (s.dropWhile validChar) "missing closing )" := by
  unfold singleToken
  rw [palt_err (pmap_err_of (parse_metadata_err_head _ (by decide)))]
  rw [palt_err (pmap_err_of (parse_material_err_head _ (by decide)))]
  rw [palt_err (pmap_err_of (parse_timer_err_head _ (by decide)))]
  refine palt_fail (pmap_fail_of ?_)
  have hc : parse_curly ('\x7b' :: (name ++ '\x7d' :: '(' :: s))
      = NRes.ok ('(' :: s) (trimList name) :=
    parse_curly_ok_shape ('(' :: s) hnn hnv
  simp [parse_ingredient, ppair, hc, popt, parse_amount_fail_shape h1 h2]

theorem singleToken_comment_fallback {t : List Char}
    (h : findSub ['*', '/'] t = none) :
    singleToken ('/' :: '*' :: t)
      = NRes.ok (t.dropWhile (fun x => !(isMultispace x)))
          (Token.Word ('/' :: '*' :: t.takeWhile (fun x => !(isMultispace x)))) := by
  unfold singleToken
  rw [palt_err (pmap_err_of (parse_metadata_err_head _ (by decide)))]
  rw [palt_err (pmap_err_of (parse_material_err_head _ (by decide)))]
  rw [palt_err (pmap_err_of (parse_timer_err_head _ (by decide)))]
  rw [palt_err (pmap_err_of (parse_ingredient_err_head _ (by decide)))]
  rw [palt_err (pmap_err_of
    (parse_backstory_err_head _ (by decide) (by decide)))]
  rw [palt_err (pmap_err_of (parse_comment_err_no_close h))]
  refine palt_ok (pmap_ok_of ?_)
  have e1 : isMultispace '/' = false := by decide
  have e2 : isMultispace '*' = false := by decide
  simp [parse_word, take_till1, take_while1, List.takeWhile_cons,
    List.dropWhile_cons, e1, e2]

theorem singleToken_nil : singleToken [] = NRes.err [] "take_while1" := by
  decide

theorem singleToken_err_imp_nil {i r : List Char} {s : String}
    (h : singleToken i = NRes.err r s) : i = [] := by
  cases i with
  | nil => rfl
  | cons c t =>
    exfalso
    unfold singleToken at h
    have h1 := palt_err_elim h
    have h2 := palt_err_elim h1.2
    have h3 := palt_err_elim h2.2
    have h4 := palt_err_elim h3.2
    have h5 := palt_err_elim h4.2
    have h6 := palt_err_elim h5.2
    have h7 := palt_err_elim h6.2
    obtain ⟨rword, sword, hword⟩ := h7.1
    have hspace := pmap_err_elim h7.2
    have hw := take_while1_err_elim (p := fun x => !(isMultispace x))
      (by simpa [parse_word, take_till1] using pmap_err_elim hword)
    have hs := take_while1_err_elim (p := isMultispace)
      (by simpa [parse_space] using hspace)
    by_cases hc : isMultispace c
    · simp [List.takeWhile_cons, hc] at hs
    · simp [List.takeWhile_cons, hc] at hw

theorem parse_backstory_rem {i r v : List Char}
    (h : parse_backstory i = NRes.ok r v) : r = [] := by
  unfold parse_backstory at h
  split at h
  · cases h; rfl
  · cases h
  · cases h

theorem singleToken_backstory_rem {i r : List Char} {v : List Char}
    (h : singleToken i = NRes.ok r (Token.Backstory v)) : r = [] := by
  unfold singleToken at h
  rcases palt_ok_elim h with h | h
  · obtain ⟨w, _, hw⟩ := pmap_ok_elim h
    simp at hw
  rcases palt_ok_elim h with h | h
  · obtain ⟨w, _, hw⟩ := pmap_ok_elim h
    simp at hw
  rcases palt_ok_elim h with h | h
  · obtain ⟨w, _, hw⟩ := pmap_ok_elim h
    simp at hw
  rcases palt_ok_elim h with h | h
  · obtain ⟨w, _, hw⟩ := pmap_ok_elim h
    simp at hw
  rcases palt_ok_elim h with h | h
  · obtain ⟨w, hb, _⟩ := pmap_ok_elim h
    exact parse_backstory_rem hb
  rcases palt_ok_elim h with h | h
  · obtain ⟨w, _, hw⟩ := pmap_ok_elim h
    simp at hw
  rcases palt_ok_elim h with h | h
  · obtain ⟨w, _, hw⟩ := pmap_ok_elim h
    simp at hw
  · obtain ⟨w, _, hw⟩ := pmap_ok_elim h
    simp at hw

theorem many1Go_spec :
    ∀ (fuel : Nat) (i : List Char) (acc : List Token) (r : List Char)
      (toks : List Token),
    many1Go singleToken fuel i acc = NRes.ok r toks →
    r = [] ∧ ∃ suf, toks = acc.reverse ++ suf
      ∧ (∀ t ∈ suf.dropLast, t.isBackstory = false)
      ∧ (i = [] → suf = []) := by
  intro fuel
  induction fuel with
  | zero =>
    intro i acc r toks h
    simp [many1Go] at h
  | succ fuel ih =>
    intro i acc r toks h
    simp only [many1Go] at h
    split at h
    · rename_i heq
      cases h
      exact ⟨singleToken_err_imp_nil heq, [], by simp, by simp, fun _ => rfl⟩
    · cases h
    · rename_i i1 o heq
      split at h
      · obtain ⟨hr, suf2, hsuf, hclean, hnil⟩ := ih i1 (o :: acc) r toks h
        refine ⟨hr, o :: suf2, ?_, ?_, ?_⟩
        · rw [hsuf]
          simp
        · intro t ht
          cases suf2 with
          | nil => simp at ht
          | cons x xs =>
            have hd : (o :: x :: xs).dropLast = o :: (x :: xs).dropLast := rfl
            rw [hd] at ht
            rcases List.mem_cons.mp ht with rfl | hmem
            · cases t
              case Backstory w =>
                exact absurd (hnil (singleToken_backstory_rem heq))
                  (List.cons_ne_nil x xs)
              all_goals rfl
            · exact hclean t hmem
        · intro hi
          rw [hi, singleToken_nil] at heq
          cases heq
      · cases h

theorem parse_ok_spec {i r : List Char} {toks : List Token}
    (h : parse i = NRes.ok r toks) :
    r = [] ∧ ∃ t0 i1 suf, singleToken i = NRes.ok i1 t0 ∧ toks = t0 :: suf
      ∧ (∀ t ∈ toks.dropLast, t.isBackstory = false) := by
  unfold parse many1 at h
  split at h
  · cases h
  · cases h
  · rename_i i1 o heq
    obtain ⟨hr, suf, hsuf, hclean, hnil⟩ := many1Go_spec _ i1 [o] r toks h
    have htoks : toks = o :: suf := by
      rw [hsuf]
      simp
    refine ⟨hr, o, i1, suf, heq, htoks, ?_⟩
    intro t ht
    rw [htoks] at ht
    cases suf with
    | nil => simp at ht
    | cons x xs =>
      have hd : (o :: x :: xs).dropLast = o :: (x :: xs).dropLast := rfl
      rw [hd] at ht
      rcases List.mem_cons.mp ht with rfl | hmem
      · cases t
        case Backstory w =>
          exact absurd (hnil (singleToken_backstory_rem heq))
            (List.cons_ne_nil x xs)
        all_goals rfl
      · exact hclean t hmem

theorem parse_head_of_singleToken {i i1 : List Char} {t0 : Token}
    (hst : singleToken i = NRes.ok i1 t0) :
    ∀ (r : List Char) (toks : List Token),
    parse i = NRes.ok r toks → toks.head? = some t0 := by
  intro r toks h
  obtain ⟨hr, t2, i2, suf, hst2, htoks, _⟩ := parse_ok_spec h
  have hee := hst.symm.trans hst2
  cases hee
  rw [htoks]
  rfl

theorem countP_le_one_of_dropLast {l : List Token}
    (h : ∀ t ∈ l.dropLast, t.isBackstory = false) :
    l.countP Token.isBackstory ≤ 1 := by
  rcases eq_or_ne l [] with rfl | hne
  · simp
  · have hone : ([l.getLast hne]).countP Token.isBackstory ≤ 1 := by
      by_cases hb : (l.getLast hne).isBackstory
        <;> simp [List.countP_cons, hb]
    have hzero : l.dropLast.countP Token.isBackstory = 0 :=
      List.countP_eq_zero.mpr (by intro a ha; simp [h a ha])
    calc l.countP Token.isBackstory
        = (l.dropLast ++ [l.getLast hne]).countP Token.isBackstory := by
          rw [List.dropLast_append_getLast hne]
      _ = l.dropLast.countP Token.isBackstory
            + ([l.getLast hne]).countP Token.isBackstory :=
          List.countP_append _ _ _
      _ ≤ 1 := by omega

/-- C1: for the exact input
`"Boil the quinoa for t{5 minutes} in a m{pot}.\nPut the boiled {quinoa}(200gr) in the base of the bowl."`,
`parse` succeeds and the concatenated rendered form of the returned
tokens, in order, is exactly
`"Boil the quinoa for 5 minutes in a pot.\nPut the boiled quinoa in the base of the bowl."`. -/
theorem C1_end_to_end :
    renderParse
        ("Boil the quinoa for t\x7b5 minutes\x7d in a m\x7bpot\x7d.\nPut the boiled \x7bquinoa\x7d(200gr) in the base of the bowl.".toList)
      = some ("Boil the quinoa for 5 minutes in a pot.\nPut the boiled quinoa in the base of the bowl.".toList) := by
  decide

/-- C2: the rendering function behaves as specified on every token: an
Ingredient renders as its name only (amount dropped); Timer, Material,
Word, Space and Backstory render their payload verbatim; Metadata and
Comment render as the empty string. -/
theorem C2_render_contract :
    (∀ name amount, (Token.Ingredient name amount).render = name)
    ∧ (∀ v, (Token.Timer v).render = v)
    ∧ (∀ v, (Token.Material v).render = v)
    ∧ (∀ v, (Token.Word v).render = v)
    ∧ (∀ v, (Token.Space v).render = v)
    ∧ (∀ v, (Token.Backstory v).render = v)
    ∧ (∀ k v, (Token.Metadata k v).render = [])
    ∧ (∀ v, (Token.Comment v).render = []) := by
  refine ⟨fun _ _ => rfl, fun _ => rfl, fun _ => rfl, fun _ => rfl,
    fun _ => rfl, fun _ => rfl, fun _ _ => rfl, fun _ => rfl⟩

/-- C3 counterexample: the claim extends the commit policy to every
opening paren, but a bare unclosed paren that is not in ingredient-amount
position is reinterpreted as part of a literal Word token: `parse` on
`"(y"` succeeds with `[Word "(y"]` instead of failing. -/
theorem C3_counterexample :
    parse ("(y".toList) = NRes.ok [] [Token.Word ['(', 'y']] := by
  decide

/-- C4 counterexample: the claim says parsing the input `"{}"` fails as
an empty-payload error, but the empty-payload error is recoverable (it
precedes the committed closing-delimiter check), so the whole `parse`
succeeds with the braces swallowed by the Word fallback. -/
theorem C4_counterexample :
    parse ("\x7b\x7d".toList) = NRes.ok [] [Token.Word ['\x7b', '\x7d']] := by
  decide

/-- C4 amended: the payload sub-parsers reject the empty payloads `"{}"`
and `"()"` with a recoverable error, but at the whole-parse level these
inputs do not fail: the Word fallback consumes the delimiters, so
`parse` succeeds with a Word token. -/
theorem C4_amended_empty_payload :
    parse_curly ("\x7b\x7d".toList) = NRes.err ['\x7d'] "take_while1"
    ∧ parse_ingredient_amount ("()".toList) = NRes.err [')'] "take_while1"
    ∧ parse ("\x7b\x7d".toList) = NRes.ok [] [Token.Word ['\x7b', '\x7d']]
    ∧ parse ("()".toList) = NRes.ok [] [Token.Word ['(', ')']] := by
  refine ⟨by decide, by decide, by decide, by decide⟩

/-- C7: a parenthesized amount attaches to an ingredient only when it
immediately follows the closing brace: `"{x}(y)"` parses to a single
Ingredient with amount `some "y"`, while `"{x} (y)"` parses to an
Ingredient with amount `none` followed by separate Space and Word tokens
covering `" (y)"`. -/
theorem C7_amount_attachment :
    parse ("\x7bx\x7d(y)".toList)
      = NRes.ok [] [Token.Ingredient ['x'] (some ['y'])]
    ∧ parse ("\x7bx\x7d (y)".toList)
      = NRes.ok [] [Token.Ingredient ['x'] none,
          Token.Space [' '], Token.Word ['(', 'y', ')']] := by
  refine ⟨by decide, by decide⟩

/-- C8 counterexample: the claim says the captured key and value are
trimmed of surrounding whitespace, but only leading spaces and tabs are
consumed (by `space0`): on `">>a :b \n"` the captured key is `"a "` and
the value is `"b "`, both keeping their trailing space. -/
theorem C8_counterexample :
    parse_metadata (">>a :b \n".toList)
      = NRes.ok ['\n'] (['a', ' '], ['b', ' ']) := by
  decide

/-- C3 amended: at any scan position where an opening brace is followed
by a non-empty valid payload without a closing brace, the single-token
alternative commits and the whole parse fails with the unterminated-brace
diagnostic; a paren commits likewise, but only when it engages as an
ingredient amount immediately after a closing brace (elsewhere an
unclosed paren falls back to Word, per the counterexample); and any
committed failure at a reached scan position aborts the whole parse with
that diagnostic. -/
theorem C3_amended_committed_failure :
    (∀ s : List Char, s.takeWhile validChar ≠ [] →
      (s.dropWhile validChar).head? ≠ some '\x7d' →
      parse ('\x7b' :: s)
        = NRes.fail (s.dropWhile validChar) "missing closing \x7d")
    ∧ (∀ name s : List Char, name ≠ [] → name.all validChar = true →
      s.takeWhile validChar ≠ [] →
      (s.dropWhile validChar).head? ≠ some ')' →
      parse ('\x7b' :: (name ++ '\x7d' :: '(' :: s))
        = NRes.fail (s.dropWhile validChar) "missing closing )")
    ∧ (∀ (i r : List Char) (s : String), singleToken i = NRes.fail r s →
      parse i = NRes.fail r s
      ∧ ∀ (fuel : Nat) (acc : List Token),
          many1Go singleToken (fuel + 1) i acc = NRes.fail r s) := by
  refine ⟨?_, ?_, ?_⟩
  · intro s h1 h2
    have hf := singleToken_curly_fail h1 h2
    simp [parse, many1, hf]
  · intro name s hnn hnv h1 h2
    have hf := singleToken_amount_fail hnn hnv h1 h2
    simp [parse, many1, hf]
  · intro i r s hf
    exact ⟨by simp [parse, many1, hf],
      fun fuel acc => by simp [many1Go, hf]⟩

/-- C3 witness: `"{unclosed"` makes the whole parse fail with the
unterminated-brace diagnostic. -/
theorem C3_witness :
    parse ('\x7b' :: "unclosed".toList)
      = NRes.fail ("unclosed".toList.dropWhile validChar)
          "missing closing \x7d" :=
  C3_amended_committed_failure.1 ("unclosed".toList) (by decide) (by decide)

/-- C5: on every successful parse, at most one Backstory token exists;
if one is present it is the last token and the remainder is empty; and
backstory recognition itself always consumes the rest of the input. -/
theorem C5_backstory_unique_last :
    (∀ (i r : List Char) (toks : List Token), parse i = NRes.ok r toks →
      toks.countP Token.isBackstory ≤ 1
      ∧ (∀ t ∈ toks.dropLast, t.isBackstory = false)
      ∧ (toks.any Token.isBackstory = true → r = []))
    ∧ (∀ (i r v : List Char), parse_backstory i = NRes.ok r v → r = []) := by
  constructor
  · intro i r toks h
    obtain ⟨hr, t0, i1, suf, hst, htoks, hclean⟩ := parse_ok_spec h
    exact ⟨countP_le_one_of_dropLast hclean, hclean, fun _ => hr⟩
  · intro i r v h
    exact parse_backstory_rem h

/-- C5 witness: the parse of `"a\n---\nb"` has at most one Backstory
token. -/
theorem C5_witness :
    List.countP Token.isBackstory [Token.Word ['a'], Token.Backstory ['b']]
      ≤ 1 :=
  (C5_backstory_unique_last.1 ("a\n---\nb".toList) []
    [Token.Word ['a'], Token.Backstory ['b']] (by decide)).1

/-- C6: where both the Material (or Timer) shape and the bare
Ingredient/Word shapes match, Material (or Timer) wins: on input
beginning `m{payload}` the scanner yields a Material token (and on
`t{payload}` a Timer token), and the first token of any successful whole
parse is that Material (resp. Timer), never `Word "m"` followed by an
Ingredient. -/
theorem C6_material_timer_precedence :
    ∀ (payload rest : List Char), payload ≠ [] →
    payload.all validChar = true →
    (singleToken ('m' :: '\x7b' :: (payload ++ '\x7d' :: rest))
        = NRes.ok rest (Token.Material (trimList payload)))
    ∧ (singleToken ('t' :: '\x7b' :: (payload ++ '\x7d' :: rest))
        = NRes.ok rest (Token.Timer (trimList payload)))
    ∧ (∀ (r : List Char) (toks : List Token),
        parse ('m' :: '\x7b' :: (payload ++ '\x7d' :: rest))
          = NRes.ok r toks →
        toks.head? = some (Token.Material (trimList payload)))
    ∧ (∀ (r : List Char) (toks : List Token),
        parse ('t' :: '\x7b' :: (payload ++ '\x7d' :: rest))
          = NRes.ok r toks →
        toks.head? = some (Token.Timer (trimList payload))) := by
  intro payload rest hne hval
  have hm := singleToken_material rest hne hval
  have ht := singleToken_timer rest hne hval
  exact ⟨hm, ht, parse_head_of_singleToken hm, parse_head_of_singleToken ht⟩

/-- C6 witness: `m{x}` scans to a Material token. -/
theorem C6_witness :
    singleToken ('m' :: '\x7b' :: (['x'] ++ '\x7d' :: []))
      = NRes.ok [] (Token.Material (trimList ['x'])) :=
  (C6_material_timer_precedence ['x'] [] (by decide) (by decide)).1

/-- C8 amended: the captured metadata key is every character between the
marker (plus consumed leading spaces/tabs) and the `:`, kept verbatim —
trailing whitespace before the `:` is retained; the captured value is
every character after the `:` (plus consumed leading spaces/tabs) up to,
excluding, the newline, kept verbatim — trailing whitespace before the
newline is retained.  Only leading whitespace is trimmed, not
surrounding whitespace. -/
theorem C8_amended_leading_trim_only :
    ∀ (k v rest : List Char), (∀ c ∈ k, c ≠ ':') → '\n' ∉ v →
    k.dropWhile isSpaceTab ≠ [] →
    parse_metadata ('>' :: '>' :: (k ++ ':' :: (v ++ '\n' :: rest)))
      = NRes.ok ('\n' :: rest)
          (k.dropWhile isSpaceTab, v.dropWhile isSpaceTab) := by
  intro k v rest hk hv hkne
  have hopen : ptag ['>', '>'] ('>' :: '>' :: (k ++ ':' :: (v ++ '\n' :: rest)))
      = NRes.ok (k ++ ':' :: (v ++ '\n' :: rest)) ['>', '>'] := by
    simpa using ptag_append_ok ['>', '>'] (k ++ ':' :: (v ++ '\n' :: rest))
  have hsp1 : (k ++ ':' :: (v ++ '\n' :: rest)).dropWhile isSpaceTab
      = k.dropWhile isSpaceTab ++ ':' :: (v ++ '\n' :: rest) :=
    dropWhile_stop (by decide) k (v ++ '\n' :: rest)
  obtain ⟨c, cs, hcons⟩ := List.exists_cons_of_ne_nil hkne
  have hksub : ∀ x ∈ k.dropWhile isSpaceTab, (!(x == ':')) = true := by
    intro x hx
    simpa using hk x (mem_of_mem_dropWhile hx)
  have htk : (k.dropWhile isSpaceTab ++ ':' :: (v ++ '\n' :: rest)).takeWhile
      (fun c => !(c == ':')) = k.dropWhile isSpaceTab :=
    (takeWhile_stop (by simp) (k.dropWhile isSpaceTab)
      (v ++ '\n' :: rest)).trans (List.takeWhile_eq_self_iff.mpr hksub)
  have hdk : (k.dropWhile isSpaceTab ++ ':' :: (v ++ '\n' :: rest)).dropWhile
      (fun c => !(c == ':')) = ':' :: (v ++ '\n' :: rest) := by
    rw [dropWhile_stop (by simp) (k.dropWhile isSpaceTab) (v ++ '\n' :: rest),
      List.dropWhile_eq_nil_iff.mpr hksub]
    rfl
  have hsp2 : (v ++ '\n' :: rest).dropWhile isSpaceTab
      = v.dropWhile isSpaceTab ++ '\n' :: rest :=
    dropWhile_stop (by decide) v rest
  have hvnin : '\n' ∉ v.dropWhile isSpaceTab :=
    fun hx => hv (mem_of_mem_dropWhile hx)
  have hfind : findSub ['\n'] (v.dropWhile isSpaceTab ++ '\n' :: rest)
      = some (v.dropWhile isSpaceTab).length :=
    findSub_single (v.dropWhile isSpaceTab) rest hvnin
  have hcolon : ptag [':'] (':' :: (v ++ '\n' :: rest))
      = NRes.ok (v ++ '\n' :: rest) [':'] := by
    simpa using ptag_append_ok [':'] (v ++ '\n' :: rest)
  have htk2 : List.takeWhile (fun c => !(c == ':'))
      (c :: (cs ++ ':' :: (v ++ '\n' :: rest))) = c :: cs := by
    rw [hcons] at htk
    simpa using htk
  have hdk2 : List.dropWhile (fun c => !(c == ':'))
      (c :: (cs ++ ':' :: (v ++ '\n' :: rest)))
      = ':' :: (v ++ '\n' :: rest) := by
    rw [hcons] at hdk
    simpa using hdk
  simp [parse_metadata, preceded, terminated, ppair, hopen, space0,
    take_while0, hsp1, hcons, take_while1, htk2, hdk2, hcolon, hsp2,
    take_until, hfind, List.take_left, List.drop_left]

/-- C8 witness: on `">>a :b \n"` (trailing space before both the colon
and the newline) the captured key and value keep their trailing
spaces. -/
theorem C8_witness :
    parse_metadata ('>' :: '>' :: ((['a', ' ']) ++ ':' :: ((['b', ' '])
        ++ '\n' :: [])))
      = NRes.ok ('\n' :: [])
          ((['a', ' ']).dropWhile isSpaceTab,
            (['b', ' ']).dropWhile isSpaceTab) :=
  C8_amended_leading_trim_only ['a', ' '] ['b', ' '] []
    (by decide) (by decide) (by decide)

/-- C9: whenever `parse` succeeds, the unconsumed trailing remainder
returned alongside the token sequence is empty. -/
theorem C9_empty_remainder :
    ∀ (i r : List Char) (toks : List Token),
    parse i = NRes.ok r toks → r = [] :=
  fun _ _ _ h => (parse_ok_spec h).1

/-- C9 witness: the successful parse of `"hi"` indeed reports an empty
remainder. -/
theorem C9_witness :
    parse ("hi".toList) = NRes.ok [] [Token.Word ['h', 'i']]
    ∧ ([] : List Char) = [] :=
  ⟨by decide, C9_empty_remainder ("hi".toList) [] [Token.Word ['h', 'i']]
    (by decide)⟩

/-- C10: a comment opener does not commit: at a scan position starting
with `/*` and with no subsequent closing sequence in the remaining
input, `parse_comment` yields only a recoverable error, the scanner
produces a Word token spanning the `/*` and the rest of its
non-whitespace run (never a Comment token or a committed failure), and
the first token of any successful whole parse from that position is that
Word token. -/
theorem C10_comment_no_commit :
    ∀ t : List Char, findSub ['*', '/'] t = none →
    parse_comment ('/' :: '*' :: t) = NRes.err t "take_until"
    ∧ singleToken ('/' :: '*' :: t)
        = NRes.ok (t.dropWhile (fun x => !(isMultispace x)))
            (Token.Word
              ('/' :: '*' :: t.takeWhile (fun x => !(isMultispace x))))
    ∧ (∀ (r : List Char) (toks : List Token),
        parse ('/' :: '*' :: t) = NRes.ok r toks →
        toks.head? = some (Token.Word
          ('/' :: '*' :: t.takeWhile (fun x => !(isMultispace x))))) := by
  intro t h
  have hw := singleToken_comment_fallback h
  exact ⟨parse_comment_err_no_close h, hw, parse_head_of_singleToken hw⟩

/-- C10 witness: `"/*abc"` (no closing sequence) scans to a recoverable
comment error and a Word token. -/
theorem C10_witness :
    parse_comment ('/' :: '*' :: "abc".toList)
      = NRes.err ("abc".toList) "take_until" :=
  (C10_comment_no_commit ("abc".toList) (by decide)).1

end Recipe
